import Mathlib

/-!
Verification of the batch execution orchestrator of the angiogenesis GUI.

The development shallowly embeds the Python source:

* sweep expansion: `detect_sweep_parameters`, `_convert_to_number` and
  `generate_parameter_combinations` of `src/gui/main_window.py`
  (parameter dictionaries are modelled as association lists in insertion
  order, which is the iteration order of Python dicts);
* run naming of `launch_batch_simulation` of `src/gui/main_window.py`;
* the worker lifecycle of `SimulationWorker.run`, `_monitor_progress` and
  `_interpret_exit_code` of `src/gui/simulation_worker.py` (the external
  schedule of a run - spawn success, the sequence of checkpoint values
  observed by the polling loop, and the wait outcome - is an explicit
  environment value, and the run is a function from that environment to
  the list of emitted events and resource actions);
* the batch aggregation handlers `on_batch_simulation_finished`,
  `on_batch_simulation_error`, `cancel_batch` and `finalize_batch` of
  `src/gui/main_window.py` (all of them run on the single Qt GUI thread,
  so a batch execution is a fold of the handlers over the serialized
  list of arriving events).

Python floats are modelled by exact rationals (for the division in the
progress computation) or by their literal strings (for parameter values);
properties proved about rational arithmetic are noted where they are
insensitive to rounding.
-/

/-! ## Parameter values and sweep expansion -/

/-- A scalar parameter value: integer, floating point, boolean or text.
Floats are carried as their Python literal/repr string; no claim in this
development depends on float arithmetic on parameter values. -/
inductive PValue where
  | vInt (n : Int)
  | vFloat (lit : String)
  | vBool (b : Bool)
  | vStr (s : String)
deriving DecidableEq

instance : Inhabited PValue := ⟨PValue.vStr ""⟩

/-- Python `str(value)` for a parameter value (`str(True) = "True"`). -/
def strOfPValue : PValue → String
  | .vInt n => toString n
  | .vFloat lit => lit
  | .vBool b => if b then "True" else "False"
  | .vStr s => s

/-- Python `str.strip()` on a character list (ASCII whitespace). -/
def pyStrip (cs : List Char) : List Char :=
  ((cs.dropWhile Char.isWhitespace).reverse.dropWhile Char.isWhitespace).reverse

/-- Python `value_str.split(',')`: split at every comma; always returns at
least one (possibly empty) token, and one more token per comma. -/
def splitOnComma : List Char → List (List Char)
  | [] => [[]]
  | c :: rest =>
    if c = ',' then [] :: splitOnComma rest
    else
      match splitOnComma rest with
      | [] => [[c]]
      | t :: ts => (c :: t) :: ts

/-- Decimal value of a digit character (the inverse of `'0' + d`). -/
def charDigit (ch : Char) : Nat := ch.toNat - 48

/-- Decimal value of a big-endian digit string, `foldl`-style. -/
def listVal (cs : List Char) : Nat :=
  cs.foldl (fun a ch => 10 * a + charDigit ch) 0

/-- Python `int(s)` on a string: strips whitespace, optional sign, then a
nonempty run of ASCII digits; anything else raises `ValueError`, modelled
as `none`.  (Underscore digit grouping accepted by CPython is not
modelled; no claim exercises it.) -/
def pyParseInt (s : String) : Option Int :=
  match pyStrip s.data with
  | '+' :: rest =>
    if !rest.isEmpty && rest.all Char.isDigit then some (listVal rest) else none
  | '-' :: rest =>
    if !rest.isEmpty && rest.all Char.isDigit then some (-(listVal rest : Int)) else none
  | cs =>
    if !cs.isEmpty && cs.all Char.isDigit then some (listVal cs) else none

/-- Exponent digits after an optional sign (`e+10`, `E3`, ...). -/
def isExpTail (cs : List Char) : Bool :=
  match cs with
  | '+' :: ds => !ds.isEmpty && ds.all Char.isDigit
  | '-' :: ds => !ds.isEmpty && ds.all Char.isDigit
  | ds => !ds.isEmpty && ds.all Char.isDigit

/-- An exponent part `e.../E...`. -/
def isExpPart (cs : List Char) : Bool :=
  match cs with
  | 'e' :: t => isExpTail t
  | 'E' :: t => isExpTail t
  | _ => false

/-- Drop an optional leading sign. -/
def pySign (cs : List Char) : List Char :=
  match cs with
  | '+' :: r => r
  | '-' :: r => r
  | cs => cs

/-- Mantissa with optional fractional dot and optional exponent; at least
one digit is required. -/
def isFloatBody (cs : List Char) : Bool :=
  let intPart := cs.takeWhile Char.isDigit
  let rest1 := cs.drop intPart.length
  match rest1 with
  | '.' :: rest2 =>
    let fracPart := rest2.takeWhile Char.isDigit
    let rest3 := rest2.drop fracPart.length
    (!intPart.isEmpty || !fracPart.isEmpty) && (rest3.isEmpty || isExpPart rest3)
  | r => !intPart.isEmpty && (r.isEmpty || isExpPart r)

/-- Whether Python `float(s)` succeeds (finite decimal literals;
`inf`/`nan` spellings are not modelled, and no claim exercises them). -/
def isPyFloat (s : String) : Bool := isFloatBody (pySign (pyStrip s.data))

/-- `MainWindow._convert_to_number` (`src/gui/main_window.py`): try `int`
for dot-free strings, `float` for strings with a dot, and keep the string
itself on `ValueError`.  The function is total: every parse failure is
caught inside it. -/
def convertToNumber (s : String) : PValue :=
  if '.' ∈ s.data then
    if isPyFloat s then PValue.vFloat s else PValue.vStr s
  else
    match pyParseInt s with
    | some n => PValue.vInt n
    | none => PValue.vStr s

/-- The alternatives parsed from one comma-separated sweep field:
`[self._convert_to_number(v.strip()) for v in value_str.split(',')]`. -/
def sweepValues (s : String) : List PValue :=
  (splitOnComma s.data).map fun t => convertToNumber (String.mk (pyStrip t))

/-- `MainWindow.detect_sweep_parameters`: walk the parameter dict in
insertion order; an entry whose textual form contains a comma becomes a
sweep axis (its parsed alternatives), and its first alternative is used
as the base value; every other entry is copied to the base unchanged.
Returns `(sweep_parameters, base_parameters)`.  The `except` fallback of
the source is unreachable because `_convert_to_number` is total, so it
has no counterpart here. -/
def detectSweep : List (String × PValue) → List (String × List PValue) × List (String × PValue)
  | [] => ([], [])
  | (nm, v) :: rest =>
    let acc := detectSweep rest
    let vs := strOfPValue v
    if ',' ∈ vs.data then
      let vals := sweepValues vs
      ((nm, vals) :: acc.1, (nm, vals.headI) :: acc.2)
    else
      (acc.1, (nm, v) :: acc.2)

/-- Python dict item assignment on an association list: replace the value
at the first occurrence of the key, keeping its position; append a new
entry if the key is absent. -/
def updAssoc : List (String × PValue) → String → PValue → List (String × PValue)
  | [], k, v => [(k, v)]
  | (k', v') :: rest, k, v =>
    if k' = k then (k', v) :: rest else (k', v') :: updAssoc rest k v

/-- Look up a key in an association list (first occurrence). -/
def lookupA (k : String) : List (String × PValue) → Option PValue
  | [] => none
  | (k', v) :: rest => if k' = k then some v else lookupA k rest

/-- Apply a list of dict item assignments in order. -/
def applyUpdates (base : List (String × PValue)) (ups : List (String × PValue)) :
    List (String × PValue) :=
  ups.foldl (fun acc kv => updAssoc acc kv.1 kv.2) base

/-- `itertools.product` over the sweep axes: the last axis varies
fastest. -/
def cartesianProduct : List (List PValue) → List (List PValue)
  | [] => [[]]
  | xs :: rest => xs.flatMap fun x => (cartesianProduct rest).map fun t => x :: t

/-- `MainWindow.generate_parameter_combinations`: no sweep axes yield the
single base configuration; otherwise one configuration per element of the
Cartesian product of the axes (in declaration order), obtained by copying
the base parameters and overwriting the swept names. -/
def generateCombinations (sw : List (String × List PValue))
    (base : List (String × PValue)) : List (List (String × PValue)) :=
  if sw.isEmpty then [base]
  else
    (cartesianProduct (sw.map Prod.snd)).map fun tuple =>
      applyUpdates base ((sw.map Prod.fst).zip tuple)

/-- A sample parameter dict: a swept `jee`, a plain float `jem` and a
text name, as in the spec example. -/
def sampleSweepParams : List (String × PValue) :=
  [("jee", PValue.vStr "2,4"), ("jem", PValue.vFloat "3.0"), ("exp_name", PValue.vStr "x")]

/-! ## Run naming (`launch_batch_simulation`) -/

/-- The decimal digit character of `d < 10`. -/
def digitChar10 (d : Nat) : Char :=
  match d with
  | 0 => '0' | 1 => '1' | 2 => '2' | 3 => '3' | 4 => '4'
  | 5 => '5' | 6 => '6' | 7 => '7' | 8 => '8' | 9 => '9'
  | _ => '*'

/-- Big-endian decimal digits of `n`, by fuel (`n` itself suffices);
empty for `n = 0`. -/
def natReprAux : Nat → Nat → List Char
  | 0, _ => []
  | fuel + 1, n =>
    if n = 0 then [] else natReprAux fuel (n / 10) ++ [digitChar10 (n % 10)]

/-- Decimal representation of a natural number. -/
def natRepr (n : Nat) : List Char :=
  if n = 0 then ['0'] else natReprAux n n

/-- Python `f"{n:0wd}"`: decimal digits left-padded with zeros to width
`w`. -/
def pyPad (w n : Nat) : List Char :=
  List.replicate (w - (natRepr n).length) '0' ++ natRepr n

/-- The unique experiment name generated in `launch_batch_simulation`
(`src/gui/main_window.py`) for 1-based combination index `c` out of
`numCombos` configurations and 1-based replicate index `r` out of `reps`
replicates of base name `B`. -/
def runName (B : String) (numCombos reps c r : Nat) : String :=
  if 1 < numCombos ∧ 1 < reps then
    B ++ "_combo" ++ String.mk (pyPad 3 c) ++ "_rep" ++ String.mk (pyPad 2 r)
  else if 1 < numCombos then
    B ++ "_combo" ++ String.mk (pyPad 3 c)
  else if 1 < reps then
    B ++ "_rep" ++ String.mk (pyPad 2 r)
  else
    B

/-! ## Worker lifecycle (`SimulationWorker`, `src/gui/simulation_worker.py`) -/

/-- An event emitted by one worker: a progress signal (its percentage; the
human-readable message it carries is irrelevant to every claim), the
`finished` signal or the `error` signal. -/
inductive Event where
  | progress (pct : Int)
  | finished
  | error
deriving DecidableEq

/-- How `process.wait` ends: an exit code, or the 24-hour timeout. -/
inductive RunOutcome where
  | exited (code : Int)
  | timedOut
deriving DecidableEq

/-- The external schedule of one run.  `scriptFail` is an exception inside
`_create_simulation_script`; `preOpenFail` an exception after emitting 5%
but before the log files are opened (e.g. `mkdir`); `spawnFail` an
exception raised by `subprocess.Popen` after both log files were opened;
`runs polls outcome` a successful spawn whose polling loop observes the
checkpoint values `polls` (in order) and whose wait ends in `outcome`. -/
inductive RunEnv where
  | scriptFail
  | preOpenFail
  | spawnFail
  | runs (polls : List Nat) (outcome : RunOutcome)
deriving DecidableEq

/-- Python `int()` applied to a rational: truncation toward zero. -/
def pyTrunc (q : ℚ) : Int := if 0 ≤ q then ⌊q⌋ else ⌈q⌉

/-- The percentage emitted by `_monitor_progress` for observed checkpoint
`step`: `min(95, int((current_step / self.sim_time) * 100))`. -/
def pctFor (simTime : ℚ) (step : Nat) : Int :=
  min 95 (pyTrunc ((step : ℚ) / simTime * 100))

/-- One pass of the `_monitor_progress` polling loop over the observed
checkpoint values: an observation strictly above the last reported step
emits a progress event and becomes the new last reported step; otherwise
(including the `ZeroDivisionError` swallowed when `sim_time` is zero)
nothing is emitted and the last reported step is unchanged. -/
def monitorRun (simTime : ℚ) : Nat → List Nat → List Event
  | _, [] => []
  | last, obs :: rest =>
    if last < obs ∧ simTime ≠ 0 then
      Event.progress (pctFor simTime obs) :: monitorRun simTime obs rest
    else
      monitorRun simTime last rest

/-- A step of the run body: a signal emission, or opening/closing the two
log files (they are opened together and closed together). -/
inductive WStep where
  | emit (e : Event)
  | openLogs
  | closeLogs
deriving DecidableEq

/-- The events emitted after `process.wait` returns: exit code 0 emits
100% and then `finished`; any other exit code and the timeout emit one
`error`. -/
def terminalSteps (outcome : RunOutcome) : List Event :=
  match outcome with
  | .exited code => if code = 0 then [Event.progress 100, Event.finished] else [Event.error]
  | .timedOut => [Event.error]

/-- The full linear behaviour of `SimulationWorker.run` under an external
schedule `env`: emissions 0% and 5%, opening of the two log files, 10%,
the polling loop (which runs to completion before `wait` is entered),
the close of both log files in the `finally` block, and the terminal
emission.  On the exception paths the trace is cut where the source
jumps to the outer `except` handler, which emits a single `error`. -/
def runSteps (simTime : ℚ) (env : RunEnv) : List WStep :=
  match env with
  | .scriptFail => [.emit (.progress 0), .emit .error]
  | .preOpenFail => [.emit (.progress 0), .emit (.progress 5), .emit .error]
  | .spawnFail => [.emit (.progress 0), .emit (.progress 5), .openLogs, .emit .error]
  | .runs polls outcome =>
    [.emit (.progress 0), .emit (.progress 5), .openLogs, .emit (.progress 10)]
      ++ (monitorRun simTime 0 polls).map WStep.emit
      ++ [.closeLogs]
      ++ (terminalSteps outcome).map WStep.emit

/-- The emitted signals of a run, in order. -/
def runEvents (simTime : ℚ) (env : RunEnv) : List Event :=
  (runSteps simTime env).filterMap fun st =>
    match st with
    | .emit e => some e
    | _ => none

/-- The percentages of the progress events of a trace, in order. -/
def progressVals (tr : List Event) : List Int :=
  tr.filterMap fun e =>
    match e with
    | .progress p => some p
    | _ => none

/-- Whether an event is terminal (`finished` or `error`). -/
def isTerminalEv : Event → Bool
  | .finished => true
  | .error => true
  | _ => false

/-- `SimulationWorker._interpret_exit_code`, verbatim. -/
def interpretExitCode (exitCode : Int) : String :=
  if exitCode = 0 then "Success"
  else if exitCode = 1 then "Python exception (check stderr)"
  else if exitCode = -11 then "Segmentation fault (SIGSEGV) - CC3D crashed"
  else if exitCode = 3221225477 ∨ exitCode = -1073741819 then
    "Windows ACCESS_VIOLATION - Known CC3D crash issue\n"
      ++ "This is a known CC3D Windows bug (exit code 3221225477).\n"
      ++ "The crash may be related to:\n"
      ++ "  - Cumulative memory corruption after ~40 steps\n"
      ++ "  - Zarr write triggering corrupted state\n"
      ++ "  - Windows-specific file locking issues\n"
      ++ "Try: Reduce write frequency or use smaller lattice size"
  else if exitCode < 0 then "Process killed by signal " ++ toString (-exitCode)
  else "Unknown error (exit code " ++ toString exitCode ++ ")"

/-! ## Batch aggregation (`MainWindow`, batch handlers) -/

/-- The aggregate batch state owned by the main window:
`total_combinations`, `completed_combinations`, `is_cancelled`, the
progress bar value, and the list of `finalize_batch` invocations so far
(each recorded by its `was_cancelled` argument). -/
structure BatchState where
  total : Nat
  completed : Nat
  is_cancelled : Bool
  progressValue : Nat
  finalizations : List Bool
deriving DecidableEq

/-- An event arriving at the GUI thread during a batch: a worker
`finished` signal, a worker `error` signal, or a press of the cancel
button (`confirmed` is the answer of the confirmation dialog inside
`cancel_batch`). -/
inductive BEvent where
  | runFinished
  | runError
  | cancelReq (confirmed : Bool)
deriving DecidableEq

/-- One handler invocation on the GUI thread.
`runFinished`/`runError` follow `on_batch_simulation_finished` and
`on_batch_simulation_error`: return immediately when cancelled, else
increment the completed count, set the progress bar to it, and invoke
`finalize_batch(False)` when the count has reached the total.
`cancelReq` follows `cancel_batch`: set `is_cancelled` before the
dialog; only a confirmed dialog invokes `finalize_batch(True)`. -/
def stepBatch (s : BatchState) : BEvent → BatchState
  | .runFinished =>
    if s.is_cancelled then s
    else
      { s with
        completed := s.completed + 1
        progressValue := s.completed + 1
        finalizations :=
          if s.total ≤ s.completed + 1 then s.finalizations ++ [false]
          else s.finalizations }
  | .runError =>
    if s.is_cancelled then s
    else
      { s with
        completed := s.completed + 1
        progressValue := s.completed + 1
        finalizations :=
          if s.total ≤ s.completed + 1 then s.finalizations ++ [false]
          else s.finalizations }
  | .cancelReq confirmed =>
    if confirmed then
      { s with is_cancelled := true, finalizations := s.finalizations ++ [true] }
    else
      { s with is_cancelled := true }

/-- Process a serialized list of arriving events. -/
def runBatch (s : BatchState) (evs : List BEvent) : BatchState :=
  evs.foldl stepBatch s

/-- The batch state right after `launch_batch_simulation` started `T`
runs. -/
def initBatch (T : Nat) : BatchState :=
  { total := T, completed := 0, is_cancelled := false, progressValue := 0, finalizations := [] }

/-! ## Theorems -/

/-- Claim C3: for every integer exit code, `_interpret_exit_code` returns
exactly the spec's decision table: 0 means success; 1 a generic runtime
exception in the child; -11 a segmentation fault; 3221225477 or
-1073741819 the known access-violation crash whose message suggests
reducing the write frequency or the lattice size; any other negative
value is reported as killed by signal `-code`; any other positive value
as an unknown error with the raw code. -/
theorem claim_C3_exit_codes (c : Int) :
    (c = 0 → interpretExitCode c = "Success")
    ∧ (c = 1 → interpretExitCode c = "Python exception (check stderr)")
    ∧ (c = -11 → interpretExitCode c = "Segmentation fault (SIGSEGV) - CC3D crashed")
    ∧ (c = 3221225477 ∨ c = -1073741819 →
        ∃ pre : String,
          interpretExitCode c =
            pre ++ "Try: Reduce write frequency or use smaller lattice size")
    ∧ (c < 0 → c ≠ -11 → c ≠ -1073741819 →
        interpretExitCode c = "Process killed by signal " ++ toString (-c))
    ∧ (0 < c → c ≠ 1 → c ≠ 3221225477 →
        interpretExitCode c = "Unknown error (exit code " ++ toString c ++ ")") := by
  refine ⟨?_, ?_, ?_, ?_, ?_, ?_⟩
  · rintro rfl; rfl
  · rintro rfl; rfl
  · rintro rfl; rfl
  · rintro (rfl | rfl)
    · exact ⟨"Windows ACCESS_VIOLATION - Known CC3D crash issue\n"
        ++ "This is a known CC3D Windows bug (exit code 3221225477).\n"
        ++ "The crash may be related to:\n"
        ++ "  - Cumulative memory corruption after ~40 steps\n"
        ++ "  - Zarr write triggering corrupted state\n"
        ++ "  - Windows-specific file locking issues\n", by rfl⟩
    · exact ⟨"Windows ACCESS_VIOLATION - Known CC3D crash issue\n"
        ++ "This is a known CC3D Windows bug (exit code 3221225477).\n"
        ++ "The crash may be related to:\n"
        ++ "  - Cumulative memory corruption after ~40 steps\n"
        ++ "  - Zarr write triggering corrupted state\n"
        ++ "  - Windows-specific file locking issues\n", by rfl⟩
  · intro hneg h11 hav
    unfold interpretExitCode
    rw [if_neg (by omega), if_neg (by omega), if_neg h11, if_neg (by omega), if_pos hneg]
  · intro hpos h1 hav
    unfold interpretExitCode
    rw [if_neg (by omega), if_neg h1, if_neg (by omega), if_neg (by omega), if_neg (by omega)]

/-- Claim C3 witness: the table evaluated at the concrete exit code -7
(killed by signal 7). -/
theorem claim_C3_witness :
    interpretExitCode (-7) = "Process killed by signal " ++ toString (-(-7 : Int)) :=
  (claim_C3_exit_codes (-7)).2.2.2.2.1 (by decide) (by decide) (by decide)

/-- A terminal event on an uncancelled state increments the count, moves
the progress bar, and finalizes exactly when the total is reached. -/
lemma stepBatch_terminal (s : BatchState) (e : BEvent)
    (he : e = BEvent.runFinished ∨ e = BEvent.runError)
    (hnc : s.is_cancelled = false) :
    stepBatch s e =
      { s with
        completed := s.completed + 1
        progressValue := s.completed + 1
        finalizations :=
          if s.total ≤ s.completed + 1 then s.finalizations ++ [false]
          else s.finalizations } := by
  rcases he with rfl | rfl <;> simp [stepBatch, hnc]

/-- Folding only terminal events over an uncancelled state whose count
has room to grow: the count advances by the number of events, the state
stays uncancelled, and a finalization is appended exactly when the total
is reached by a nonempty batch of events. -/
lemma runBatch_terminal (evs : List BEvent) :
    ∀ s : BatchState,
      (∀ e ∈ evs, e = BEvent.runFinished ∨ e = BEvent.runError) →
      s.is_cancelled = false →
      s.completed + evs.length ≤ s.total →
      (runBatch s evs).total = s.total
      ∧ (runBatch s evs).completed = s.completed + evs.length
      ∧ (runBatch s evs).is_cancelled = false
      ∧ (runBatch s evs).progressValue =
          (if evs.isEmpty then s.progressValue else s.completed + evs.length)
      ∧ (runBatch s evs).finalizations =
          s.finalizations ++
            (if s.completed + evs.length = s.total ∧ ¬evs.isEmpty then [false] else []) := by
  induction evs with
  | nil =>
    intro s _ hnc _
    simp [runBatch, hnc]
  | cons e rest ih =>
    intro s hterm hnc hroom
    have hrest : ∀ e' ∈ rest, e' = BEvent.runFinished ∨ e' = BEvent.runError :=
      fun e' he' => hterm e' (List.mem_cons_of_mem e he')
    have hstep := stepBatch_terminal s e (hterm e (List.mem_cons_self e rest)) hnc
    have hroom0 : s.completed + 1 + rest.length ≤ s.total := by
      simp only [List.length_cons] at hroom; omega
    have hrun : runBatch s (e :: rest) = runBatch (stepBatch s e) rest := rfl
    obtain ⟨h1, h2, h3, h4, h5⟩ :=
      ih (stepBatch s e) hrest (by rw [hstep]; exact hnc) (by rw [hstep]; simpa using hroom0)
    rw [hstep] at h1 h2 h3 h4 h5
    simp only at h1 h2 h3 h4 h5
    rw [hrun, hstep]
    refine ⟨h1, by simp [h2]; omega, h3, ?_, ?_⟩
    · rw [h4]
      by_cases hre : rest.isEmpty
      · have : rest = [] := List.isEmpty_iff.mp hre
        subst this
        simp
      · simp only [hre, if_false, List.isEmpty_cons, List.length_cons]
        simp only [Bool.false_eq_true, if_false]
        omega
    · rw [h5]
      by_cases hre : rest.isEmpty
      · have : rest = [] := List.isEmpty_iff.mp hre
        subst this
        simp only [List.length_nil, Nat.add_zero, List.isEmpty_nil, not_true, and_false,
          if_false, List.append_nil, List.isEmpty_cons, List.length_cons]
        by_cases h : s.total ≤ s.completed + 1
        · have heq : s.completed + 1 = s.total := by omega
          simp [h, heq]
        · have hne : ¬(s.completed + 1 = s.total) := by omega
          simp [h, hne]
      · have hlen : 0 < rest.length := by
          cases rest with
          | nil => simp at hre
          | cons a l => simp
        have hlt : ¬(s.total ≤ s.completed + 1) := by omega
        simp only [hlt, if_false, hre, not_false_iff, and_true, List.isEmpty_cons,
          List.length_cons, Bool.false_eq_true]
        have hiff : (s.completed + 1 + rest.length = s.total) ↔
            (s.completed + (rest.length + 1) = s.total) := by omega
        by_cases h : s.completed + 1 + rest.length = s.total
        · simp [h, hiff.mp h]
        · have h' : ¬(s.completed + (rest.length + 1) = s.total) := by omega
          simp [h, h']

/-- Claim C1: after launching `T` runs, with no cancel request, each
terminal event received by the batch handlers increments the shared
completed count by exactly 1 (after `k` events the count is `k`), the
count is monotonically non-decreasing, it reaches `T` exactly at the last
event, and `finalize_batch` fires exactly once (with
`was_cancelled = False`), at the `T`-th event and never before -
regardless of which terminal events arrive in which order. -/
theorem claim_C1_batch_count (T : Nat) (evs : List BEvent) (hT : 1 ≤ T)
    (hterm : ∀ e ∈ evs, e = BEvent.runFinished ∨ e = BEvent.runError)
    (hlen : evs.length = T) :
    (∀ k, k ≤ T → (runBatch (initBatch T) (evs.take k)).completed = k)
    ∧ (∀ k1 k2, k1 ≤ k2 → k2 ≤ T →
        (runBatch (initBatch T) (evs.take k1)).completed ≤
          (runBatch (initBatch T) (evs.take k2)).completed)
    ∧ (∀ k, k ≤ T → ((runBatch (initBatch T) (evs.take k)).completed = T ↔ k = T))
    ∧ (runBatch (initBatch T) evs).finalizations = [false]
    ∧ (∀ k, k < T → (runBatch (initBatch T) (evs.take k)).finalizations = []) := by
  have hpref : ∀ k, k ≤ T →
      (runBatch (initBatch T) (evs.take k)).completed = k
      ∧ (runBatch (initBatch T) (evs.take k)).finalizations =
          (if k = T ∧ 0 < k then [false] else []) := by
    intro k hk
    have htermk : ∀ e ∈ evs.take k, e = BEvent.runFinished ∨ e = BEvent.runError :=
      fun e he => hterm e (List.take_subset k evs he)
    have hlenk : (evs.take k).length = k := by
      rw [List.length_take, hlen]; omega
    obtain ⟨-, h2, -, -, h5⟩ := runBatch_terminal (evs.take k) (initBatch T) htermk rfl
      (by simp [initBatch, hlenk, hk])
    refine ⟨by simpa [initBatch, hlenk] using h2, ?_⟩
    rw [h5]
    simp only [initBatch, hlenk, List.nil_append, Nat.zero_add]
    by_cases hkT : k = T
    · subst hkT
      have : ¬(evs.take k).isEmpty := by
        rw [List.isEmpty_iff]
        intro hnil
        rw [hnil] at hlenk
        simp at hlenk
        omega
      simp [this, hT, Nat.lt_of_lt_of_le Nat.zero_lt_one hT]
    · simp [hkT]
  refine ⟨fun k hk => (hpref k hk).1, ?_, ?_, ?_, ?_⟩
  · intro k1 k2 h12 h2T
    rw [(hpref k1 (le_trans h12 h2T)).1, (hpref k2 h2T).1]
    exact h12
  · intro k hk
    rw [(hpref k hk).1]
  · have := (hpref T le_rfl).2
    rw [List.take_of_length_le (by omega)] at this
    rw [this]
    simp
    omega
  · intro k hk
    rw [(hpref k (le_of_lt hk)).2]
    simp
    omega

/-- Claim C1 witness: a batch of two runs whose terminal events are one
success and one error. -/
theorem claim_C1_witness :
    (runBatch (initBatch 2) [BEvent.runFinished, BEvent.runError]).finalizations = [false] :=
  (claim_C1_batch_count 2 [BEvent.runFinished, BEvent.runError] (by decide)
    (by decide) (by decide)).2.2.2.1

/-- Once the cancellation flag is set, terminal events are absorbed
without any state change. -/
lemma runBatch_cancelled (evs : List BEvent) (s : BatchState)
    (h : s.is_cancelled = true)
    (hterm : ∀ e ∈ evs, e = BEvent.runFinished ∨ e = BEvent.runError) :
    runBatch s evs = s := by
  induction evs with
  | nil => rfl
  | cons e rest ih =>
    have hstep : stepBatch s e = s := by
      rcases hterm e (List.mem_cons_self e rest) with rfl | rfl <;> simp [stepBatch, h]
    show runBatch (stepBatch s e) rest = s
    rw [hstep]
    exact ih fun e' he' => hterm e' (List.mem_cons_of_mem e he')

/-- Claim C10: once the batch cancellation flag is set, every
subsequently arriving per-run terminal event (success or error) leaves
the whole state - in particular the completed count and the progress
indicator - unchanged and never triggers batch finalization; after
cancellation, a finalization can only be produced directly by a
confirmed cancel request. -/
theorem claim_C10_frame (s : BatchState) (h : s.is_cancelled = true) :
    (∀ e, e = BEvent.runFinished ∨ e = BEvent.runError → stepBatch s e = s)
    ∧ (∀ evs, (∀ e ∈ evs, e = BEvent.runFinished ∨ e = BEvent.runError) →
        (runBatch s evs).completed = s.completed
        ∧ (runBatch s evs).progressValue = s.progressValue
        ∧ (runBatch s evs).finalizations = s.finalizations)
    ∧ (∀ e : BEvent, (stepBatch s e).finalizations ≠ s.finalizations →
        e = BEvent.cancelReq true) := by
  refine ⟨?_, ?_, ?_⟩
  · intro e he
    rcases he with rfl | rfl <;> simp [stepBatch, h]
  · intro evs hterm
    rw [runBatch_cancelled evs s h hterm]
    exact ⟨rfl, rfl, rfl⟩
  · intro e hfin
    cases e with
    | runFinished => exact absurd (by simp [stepBatch, h]) hfin
    | runError => exact absurd (by simp [stepBatch, h]) hfin
    | cancelReq confirmed =>
      cases confirmed with
      | true => rfl
      | false => exact absurd (by simp [stepBatch]) hfin

/-- Claim C10 witness: a cancelled batch state absorbing a success
event. -/
theorem claim_C10_witness :
    stepBatch
        { total := 3, completed := 1, is_cancelled := true, progressValue := 1,
          finalizations := [] } BEvent.runFinished =
      { total := 3, completed := 1, is_cancelled := true, progressValue := 1,
        finalizations := [] } :=
  (claim_C10_frame _ rfl).1 BEvent.runFinished (Or.inl rfl)

/-- The batch-cancellation property claimed by the spec, for a batch of
`T` runs processing the serialized event list `evs`: whenever a cancel
request occurs among the events, a batch finalization with
`was_cancelled = True` is eventually produced. -/
def specCancelFinalizes (T : Nat) (evs : List BEvent) : Prop :=
  (∃ b, BEvent.cancelReq b ∈ evs) →
    true ∈ (runBatch (initBatch T) evs).finalizations

/-- Claim C7 counterexample: in a batch of two runs, a cancel request
whose confirmation dialog is declined (the source sets `is_cancelled`
before showing the dialog) followed by the natural terminal events of
both runs produces no batch finalization at all - the batch-terminal
event never fires, cancelled or not, because the cancelled flag makes
the handlers drop both terminal events. -/
theorem claim_C7_counterexample :
    ¬ specCancelFinalizes 2 [BEvent.cancelReq false, BEvent.runFinished, BEvent.runFinished] := by
  intro h
  have := h ⟨false, by decide⟩
  revert this
  decide

/-- Claim C7 (amended): `cancel_batch` sets the cancellation flag before
asking for confirmation.  If the user confirms, batch finalization fires
immediately with `was_cancelled = True`; the per-run workers are not
transitioned to any Cancelled state - their terminal events, like all
terminal events arriving after the flag is set, are dropped without
affecting the aggregate.  If the user declines, the flag remains set and
no finalization ever fires from the remaining terminal events. -/
theorem claim_C7_amended (s : BatchState) (evs : List BEvent)
    (hterm : ∀ e ∈ evs, e = BEvent.runFinished ∨ e = BEvent.runError) :
    ((stepBatch s (BEvent.cancelReq true)).finalizations = s.finalizations ++ [true]
      ∧ (stepBatch s (BEvent.cancelReq true)).is_cancelled = true)
    ∧ ((stepBatch s (BEvent.cancelReq false)).finalizations = s.finalizations
      ∧ (stepBatch s (BEvent.cancelReq false)).is_cancelled = true)
    ∧ (runBatch (stepBatch s (BEvent.cancelReq false)) evs).finalizations = s.finalizations
    ∧ (runBatch (stepBatch s (BEvent.cancelReq true)) evs).finalizations =
        s.finalizations ++ [true] := by
  have habs1 : runBatch (stepBatch s (BEvent.cancelReq false)) evs =
      stepBatch s (BEvent.cancelReq false) :=
    runBatch_cancelled evs _ (by simp [stepBatch]) hterm
  have habs2 : runBatch (stepBatch s (BEvent.cancelReq true)) evs =
      stepBatch s (BEvent.cancelReq true) :=
    runBatch_cancelled evs _ (by simp [stepBatch]) hterm
  refine ⟨⟨by simp [stepBatch], by simp [stepBatch]⟩, ⟨by simp [stepBatch], by simp [stepBatch]⟩,
    ?_, ?_⟩
  · rw [habs1]; simp [stepBatch]
  · rw [habs2]; simp [stepBatch]

/-- Claim C7 witness: a confirmed cancel in a half-completed batch of
three runs finalizes immediately with `was_cancelled = True`, and the two
late terminal events change nothing. -/
theorem claim_C7_witness :
    (runBatch
        (stepBatch
          { total := 3, completed := 1, is_cancelled := false, progressValue := 1,
            finalizations := [] } (BEvent.cancelReq true))
        [BEvent.runFinished, BEvent.runError]).finalizations = [] ++ [true] :=
  (claim_C7_amended
    { total := 3, completed := 1, is_cancelled := false, progressValue := 1,
      finalizations := [] }
    [BEvent.runFinished, BEvent.runError] (by decide)).2.2.2

/-- `digitChar10` of a digit is never an underscore. -/
lemma digitChar10_ne_underscore : ∀ d, d < 10 → digitChar10 d ≠ '_' := by
  decide

/-- `charDigit` inverts `digitChar10` on digits. -/
lemma charDigit_digitChar10 : ∀ d, d < 10 → charDigit (digitChar10 d) = d := by
  decide

/-- Every character of `natReprAux` is the image of a digit. -/
lemma natReprAux_mem (fuel : Nat) : ∀ n, ∀ ch ∈ natReprAux fuel n, ∃ d, d < 10 ∧ ch = digitChar10 d := by
  induction fuel with
  | zero => intro n ch h; simp [natReprAux] at h
  | succ fuel ih =>
    intro n ch h
    by_cases hn : n = 0
    · simp [natReprAux, hn] at h
    · rw [natReprAux, if_neg hn] at h
      rcases List.mem_append.mp h with h | h
      · exact ih (n / 10) ch h
      · rcases List.mem_singleton.mp h with rfl
        exact ⟨n % 10, Nat.mod_lt n (by omega), rfl⟩

/-- No underscore appears in `pyPad`. -/
lemma pyPad_no_underscore (w n : Nat) : '_' ∉ pyPad w n := by
  intro h
  rcases List.mem_append.mp h with h | h
  · exact absurd (List.eq_of_mem_replicate h) (by decide)
  · rw [natRepr] at h
    by_cases hn : n = 0
    · rw [if_pos hn] at h
      exact absurd (List.mem_singleton.mp h) (by decide)
    · rw [if_neg hn] at h
      obtain ⟨d, hd, hch⟩ := natReprAux_mem n n '_' h
      exact digitChar10_ne_underscore d hd hch.symm

/-- The digit-fold value of `natReprAux fuel n` with accumulator `a` is
`a * 10 ^ length + n`, for sufficient fuel. -/
lemma natReprAux_val (fuel : Nat) : ∀ n a, n ≤ fuel →
    List.foldl (fun a ch => 10 * a + charDigit ch) a (natReprAux fuel n) =
      a * 10 ^ (natReprAux fuel n).length + n := by
  induction fuel with
  | zero =>
    intro n a hn
    interval_cases n
    simp [natReprAux]
  | succ fuel ih =>
    intro n a hn
    by_cases hn0 : n = 0
    · simp [natReprAux, hn0]
    · rw [natReprAux, if_neg hn0]
      rw [List.foldl_append, List.length_append]
      have hdiv : n / 10 ≤ fuel := by
        have := Nat.div_lt_self (Nat.pos_of_ne_zero hn0) (by norm_num : (1:Nat) < 10)
        omega
      rw [ih (n / 10) a hdiv]
      simp only [List.foldl_cons, List.foldl_nil, List.length_singleton]
      rw [charDigit_digitChar10 (n % 10) (Nat.mod_lt n (by omega))]
      rw [pow_succ]
      have : 10 * (n / 10) + n % 10 = n := Nat.div_add_mod n 10
      ring_nf
      omega

/-- Decoding a zero-padded decimal representation returns the number. -/
lemma listVal_pyPad (w n : Nat) : listVal (pyPad w n) = n := by
  rw [pyPad, listVal, List.foldl_append]
  have hzeros : ∀ k, List.foldl (fun a ch => 10 * a + charDigit ch) 0
      (List.replicate k '0') = 0 := by
    intro k
    induction k with
    | zero => rfl
    | succ k ihk => simpa [List.replicate_succ, charDigit] using ihk
  rw [hzeros]
  rw [natRepr]
  by_cases hn : n = 0
  · simp [hn, listVal, charDigit]
  · rw [if_neg hn]
    have := natReprAux_val n n 0 le_rfl
    simpa using this

/-- Zero-padding to a common width is injective. -/
lemma pyPad_inj (w a b : Nat) (h : pyPad w a = pyPad w b) : a = b := by
  have := congrArg listVal h
  rwa [listVal_pyPad, listVal_pyPad] at this

/-- Splitting at the first separator is unambiguous when neither prefix
contains the separator. -/
lemma append_sep_inj (sep : Char) :
    ∀ (xs ys u v : List Char), sep ∉ xs → sep ∉ ys →
      xs ++ sep :: u = ys ++ sep :: v → xs = ys ∧ u = v := by
  intro xs
  induction xs with
  | nil =>
    intro ys u v _ hy h
    cases ys with
    | nil => simpa using h
    | cons b bs =>
      simp only [List.nil_append, List.cons_append, List.cons.injEq] at h
      exact absurd (h.1 ▸ List.mem_cons_self b bs) (h.1 ▸ hy)
  | cons a as ih =>
    intro ys u v hx hy h
    cases ys with
    | nil =>
      simp only [List.cons_append, List.nil_append, List.cons.injEq] at h
      exact absurd (h.1 ▸ List.mem_cons_self a as) (fun hm => hx (h.1 ▸ hm))
    | cons b bs =>
      simp only [List.cons_append, List.cons.injEq] at h
      obtain ⟨rfl, h2⟩ := h
      obtain ⟨h3, h4⟩ := ih bs u v (fun hm => hx (List.mem_cons_of_mem _ hm))
        (fun hm => hy (List.mem_cons_of_mem _ hm)) h2
      exact ⟨by rw [h3], h4⟩

/-- String equality is character-list equality. -/
lemma string_data_inj (a b : String) (h : a.data = b.data) : a = b := by
  cases a; cases b; exact congrArg String.mk h

/-- Character data of an appended string. -/
lemma string_data_append (a b : String) : (a ++ b).data = a.data ++ b.data := rfl

/-- Character data of `String.mk`. -/
lemma string_data_mk (l : List Char) : (String.mk l).data = l := rfl

/-- In the combo-and-rep naming pattern, both indices are recoverable. -/
lemma runName_combo_rep_inj (B : String) (c r cA rA : Nat)
    (h : B ++ "_combo" ++ String.mk (pyPad 3 c) ++ "_rep" ++ String.mk (pyPad 2 r) =
        B ++ "_combo" ++ String.mk (pyPad 3 cA) ++ "_rep" ++ String.mk (pyPad 2 rA)) :
    c = cA ∧ r = rA := by
  have hd := congrArg String.data h
  simp only [string_data_append, string_data_mk, List.append_assoc] at hd
  have hd2 := List.append_cancel_left hd
  simp only [List.cons_append, List.nil_append, List.cons.injEq, true_and] at hd2
  obtain ⟨h1, h2⟩ := append_sep_inj '_' _ _ _ _
    (pyPad_no_underscore 3 c) (pyPad_no_underscore 3 cA) hd2
  simp only [List.cons.injEq, true_and] at h2
  exact ⟨pyPad_inj 3 c cA h1, pyPad_inj 2 r rA h2⟩

/-- In a single-suffix naming pattern, the padded index is
recoverable. -/
lemma runName_single_pad_inj (B tag : String) (w a b : Nat)
    (h : B ++ tag ++ String.mk (pyPad w a) = B ++ tag ++ String.mk (pyPad w b)) :
    a = b := by
  have hd := congrArg String.data h
  simp only [string_data_append, string_data_mk, List.append_assoc] at hd
  exact pyPad_inj w a b (List.append_cancel_left (List.append_cancel_left hd))

/-- Claim C4: the generated run identifier follows the four-case naming
rule (bare base name; zero-padded 3-digit combination suffix; zero-padded
2-digit replicate suffix; or both), and within one batch of `N`
configurations times `R` replicates all generated identifiers are
pairwise distinct. -/
theorem claim_C4_naming (B : String) (N R c r cA rA : Nat)
    (hc1 : 1 ≤ c) (hcN : c ≤ N) (hr1 : 1 ≤ r) (hrR : r ≤ R)
    (hcA1 : 1 ≤ cA) (hcAN : cA ≤ N) (hrA1 : 1 ≤ rA) (hrAR : rA ≤ R) :
    (N = 1 → R = 1 → runName B N R c r = B)
    ∧ (1 < N → R = 1 → runName B N R c r = B ++ "_combo" ++ String.mk (pyPad 3 c))
    ∧ (N = 1 → 1 < R → runName B N R c r = B ++ "_rep" ++ String.mk (pyPad 2 r))
    ∧ (1 < N → 1 < R →
        runName B N R c r =
          B ++ "_combo" ++ String.mk (pyPad 3 c) ++ "_rep" ++ String.mk (pyPad 2 r))
    ∧ ((c, r) ≠ (cA, rA) → runName B N R c r ≠ runName B N R cA rA) := by
  refine ⟨?_, ?_, ?_, ?_, ?_⟩
  · rintro rfl rfl
    simp [runName]
  · intro hN hR
    subst hR
    rw [runName, if_neg (by omega), if_pos hN]
  · rintro rfl hR
    rw [runName, if_neg (by omega), if_neg (by omega), if_pos hR]
  · intro hN hR
    rw [runName, if_pos ⟨hN, hR⟩]
  · intro hne heq
    by_cases hN : 1 < N
    · by_cases hR : 1 < R
      · have e1 : runName B N R c r =
            B ++ "_combo" ++ String.mk (pyPad 3 c) ++ "_rep" ++ String.mk (pyPad 2 r) := by
          rw [runName, if_pos (⟨hN, hR⟩ : 1 < N ∧ 1 < R)]
        have e2 : runName B N R cA rA =
            B ++ "_combo" ++ String.mk (pyPad 3 cA) ++ "_rep" ++ String.mk (pyPad 2 rA) := by
          rw [runName, if_pos (⟨hN, hR⟩ : 1 < N ∧ 1 < R)]
        rw [e1, e2] at heq
        obtain ⟨hc, hr⟩ := runName_combo_rep_inj B c r cA rA heq
        exact hne (by rw [hc, hr])
      · have hr : r = 1 := by omega
        have hrA : rA = 1 := by omega
        have e1 : runName B N R c r = B ++ "_combo" ++ String.mk (pyPad 3 c) := by
          rw [runName, if_neg (by omega), if_pos hN]
        have e2 : runName B N R cA rA = B ++ "_combo" ++ String.mk (pyPad 3 cA) := by
          rw [runName, if_neg (by omega), if_pos hN]
        rw [e1, e2] at heq
        have hc := runName_single_pad_inj B "_combo" 3 c cA heq
        exact hne (by rw [hc, hr, hrA])
    · have hc : c = 1 := by omega
      have hcA : cA = 1 := by omega
      by_cases hR : 1 < R
      · have e1 : runName B N R c r = B ++ "_rep" ++ String.mk (pyPad 2 r) := by
          rw [runName, if_neg (by omega), if_neg (by omega), if_pos hR]
        have e2 : runName B N R cA rA = B ++ "_rep" ++ String.mk (pyPad 2 rA) := by
          rw [runName, if_neg (by omega), if_neg (by omega), if_pos hR]
        rw [e1, e2] at heq
        have hr := runName_single_pad_inj B "_rep" 2 r rA heq
        exact hne (by rw [hc, hcA, hr])
      · have hr : r = 1 := by omega
        have hrA : rA = 1 := by omega
        exact hne (by rw [hc, hcA, hr, hrA])

/-- Claim C4 witness: with 3 configurations and 2 replicates of base
name `run`, the first identifier is `run_combo001_rep01` and differs
from the identifier of the second replicate. -/
theorem claim_C4_witness :
    runName "run" 3 2 1 1 =
      "run" ++ "_combo" ++ String.mk (pyPad 3 1) ++ "_rep" ++ String.mk (pyPad 2 1)
    ∧ runName "run" 3 2 1 1 ≠ runName "run" 3 2 1 2 :=
  ⟨(claim_C4_naming "run" 3 2 1 1 1 2 (by decide) (by decide) (by decide) (by decide)
      (by decide) (by decide) (by decide) (by decide)).2.2.2.1 (by decide) (by decide),
    (claim_C4_naming "run" 3 2 1 1 1 2 (by decide) (by decide) (by decide) (by decide)
      (by decide) (by decide) (by decide) (by decide)).2.2.2.2 (by decide)⟩

/-- Every event the polling loop emits is a progress event for an
observation strictly above the loop's last reported step. -/
lemma monitorRun_mem (simTime : ℚ) (polls : List Nat) :
    ∀ last, ∀ e ∈ monitorRun simTime last polls,
      ∃ obs, last < obs ∧ e = Event.progress (pctFor simTime obs) := by
  induction polls with
  | nil => intro last e he; simp [monitorRun] at he
  | cons obs rest ih =>
    intro last e he
    rw [monitorRun] at he
    by_cases hc : last < obs ∧ simTime ≠ 0
    · rw [if_pos hc] at he
      rcases List.mem_cons.mp he with rfl | he'
      · exact ⟨obs, hc.1, rfl⟩
      · obtain ⟨obs', h1, h2⟩ := ih obs e he'
        exact ⟨obs', lt_trans hc.1 h1, h2⟩
    · rw [if_neg hc] at he
      exact ih last e he

/-- The polled percentage never exceeds the 95 cap. -/
lemma pctFor_le (simTime : ℚ) (step : Nat) : pctFor simTime step ≤ 95 :=
  min_le_left 95 _

/-- For a positive duration the polled percentage is monotone in the
observed checkpoint.  (This is insensitive to the floating-point
rounding of the source expression, because every IEEE operation used is
monotone.) -/
lemma pctFor_mono (simTime : ℚ) (hs : 0 < simTime) {a b : Nat} (hab : a ≤ b) :
    pctFor simTime a ≤ pctFor simTime b := by
  have hq : (a : ℚ) / simTime * 100 ≤ (b : ℚ) / simTime * 100 := by
    have : (a : ℚ) ≤ b := by exact_mod_cast hab
    gcongr
  have ha : 0 ≤ (a : ℚ) / simTime * 100 := by positivity
  have hb : 0 ≤ (b : ℚ) / simTime * 100 := by positivity
  rw [pctFor, pctFor, pyTrunc, pyTrunc, if_pos ha, if_pos hb]
  exact min_le_min le_rfl (Int.floor_mono hq)

/-- A percentage is in `progressVals` exactly when the trace has the
corresponding progress event. -/
lemma mem_progressVals (tr : List Event) (p : Int) :
    p ∈ progressVals tr ↔ Event.progress p ∈ tr := by
  rw [progressVals, List.mem_filterMap]
  constructor
  · rintro ⟨e, he, hsome⟩
    cases e with
    | progress q => simp at hsome; rwa [hsome] at he
    | finished => simp at hsome
    | error => simp at hsome
  · intro h
    exact ⟨Event.progress p, h, rfl⟩

/-- With a positive duration, the percentages emitted by one pass of the
polling loop are non-decreasing. -/
lemma monitorRun_chain (simTime : ℚ) (hs : 0 < simTime) (polls : List Nat) :
    ∀ last, List.Chain' (fun a b => a ≤ b) (progressVals (monitorRun simTime last polls)) := by
  induction polls with
  | nil => intro last; simp [monitorRun, progressVals]
  | cons obs rest ih =>
    intro last
    rw [monitorRun]
    by_cases hc : last < obs ∧ simTime ≠ 0
    · rw [if_pos hc]
      have : progressVals (Event.progress (pctFor simTime obs) :: monitorRun simTime obs rest) =
          pctFor simTime obs :: progressVals (monitorRun simTime obs rest) := rfl
      rw [this, List.chain'_cons']
      refine ⟨?_, ih obs⟩
      intro y hy
      have hmem : y ∈ progressVals (monitorRun simTime obs rest) :=
        List.mem_of_mem_head? hy
      obtain ⟨obs', h1, h2⟩ := monitorRun_mem simTime rest obs (Event.progress y)
        ((mem_progressVals _ y).mp hmem)
      have hy2 : y = pctFor simTime obs' := by
        injection h2
      rw [hy2]
      exact pctFor_mono simTime hs (le_of_lt h1)
    · rw [if_neg hc]
      exact ih last

/-- Extracting the emitted events from a mapped emission list. -/
lemma filterMap_emit (l : List Event) :
    (l.map WStep.emit).filterMap
      (fun st => match st with | WStep.emit e => some e | _ => none) = l := by
  induction l with
  | nil => rfl
  | cons e rest ih =>
    simp only [List.map_cons, List.filterMap_cons]
    rw [ih]

/-- The trace of a successfully spawned run is the three launch
emissions, the polling-loop emissions, and the terminal emissions. -/
lemma runEvents_runs (simTime : ℚ) (polls : List Nat) (outcome : RunOutcome) :
    runEvents simTime (RunEnv.runs polls outcome) =
      [Event.progress 0, Event.progress 5, Event.progress 10]
        ++ monitorRun simTime 0 polls ++ terminalSteps outcome := by
  rw [runEvents, runSteps]
  rw [List.filterMap_append, List.filterMap_append, List.filterMap_append]
  rw [filterMap_emit, filterMap_emit]
  simp [List.append_assoc]

/-- Polling-loop events are never terminal. -/
lemma monitorRun_nonterminal (simTime : ℚ) (polls : List Nat) (last : Nat) :
    ∀ e ∈ monitorRun simTime last polls, isTerminalEv e = false := by
  intro e he
  obtain ⟨obs, -, rfl⟩ := monitorRun_mem simTime polls last e he
  rfl

/-- The per-run trace property claimed by the spec: all emitted
percentages non-decreasing, no percentage above 95 before the terminal
event (which is last, so: no percentage above 95 at all), and exactly
one terminal event, emitted after every progress event. -/
def specRunTrace (tr : List Event) : Prop :=
  List.Chain' (fun a b => a ≤ b) (progressVals tr)
  ∧ (∀ p ∈ progressVals tr, p ≤ 95)
  ∧ (∃ pre t, tr = pre ++ [t] ∧ isTerminalEv t = true ∧ ∀ e ∈ pre, isTerminalEv e = false)

/-- Claim C5 counterexample: a run with `sim_time = 1000` whose polling
loop observes checkpoint 10 and which then exits with code 0 emits the
percentages `0, 5, 10, 1, 100`: the launch-phase emission of 10 is
followed by the polled value 1, so the sequence is not non-decreasing
(and the success emission of 100 also precedes the terminal `finished`
event). -/
theorem claim_C5_counterexample :
    ¬ specRunTrace (runEvents 1000 (RunEnv.runs [10] (RunOutcome.exited 0))) := by
  have hpct : pctFor 1000 10 = 1 := by
    rw [pctFor, pyTrunc]
    have hq : ((10 : Nat) : ℚ) / 1000 * 100 = 1 := by norm_num
    rw [hq, if_pos (by norm_num)]
    norm_num
  have hm : monitorRun 1000 0 [10] = [Event.progress 1] := by
    rw [monitorRun, if_pos ⟨by norm_num, by norm_num⟩, hpct, monitorRun]
  have htr : runEvents 1000 (RunEnv.runs [10] (RunOutcome.exited 0)) =
      [Event.progress 0, Event.progress 5, Event.progress 10, Event.progress 1,
        Event.progress 100, Event.finished] := by
    rw [runEvents_runs, hm]
    rfl
  intro h
  rw [htr] at h
  have hchain := h.1
  rw [show progressVals [Event.progress 0, Event.progress 5, Event.progress 10,
      Event.progress 1, Event.progress 100, Event.finished] =
      [(0 : Int), 5, 10, 1, 100] from rfl] at hchain
  rw [List.chain'_cons, List.chain'_cons, List.chain'_cons] at hchain
  exact absurd hchain.2.2.1 (by norm_num)

/-- Claim C5 (amended): within one run with positive `sim_time`, the
percentages emitted by the polling loop are non-decreasing and never
exceed 95 (the initial fixed emissions 0, 5, 10 of the launch phase may
exceed an early polled value, and a single 100 is emitted on success);
exactly one terminal event (`finished` or `error`) is emitted, after
every progress event; and a 100 percentage is emitted only on a
confirmed exit code 0.  The monotonicity and the 95 cap are insensitive
to the floating-point rounding of the source, which is monotone. -/
theorem claim_C5_amended (simTime : ℚ) (hs : 0 < simTime) (env : RunEnv) :
    (∀ last polls,
      List.Chain' (fun a b => a ≤ b) (progressVals (monitorRun simTime last polls)))
    ∧ (∀ last polls, ∀ p ∈ progressVals (monitorRun simTime last polls), p ≤ 95)
    ∧ (∃ pre t, runEvents simTime env = pre ++ [t] ∧ isTerminalEv t = true
        ∧ ∀ e ∈ pre, isTerminalEv e = false)
    ∧ (Event.progress 100 ∈ runEvents simTime env →
        ∃ polls, env = RunEnv.runs polls (RunOutcome.exited 0)) := by
  refine ⟨fun last polls => monitorRun_chain simTime hs polls last, ?_, ?_, ?_⟩
  · intro last polls p hp
    obtain ⟨obs, -, h2⟩ := monitorRun_mem simTime polls last (Event.progress p)
      ((mem_progressVals _ p).mp hp)
    have hpp : p = pctFor simTime obs := by injection h2
    rw [hpp]
    exact pctFor_le simTime obs
  · cases env with
    | scriptFail =>
      exact ⟨[Event.progress 0], Event.error, rfl, rfl, by decide⟩
    | preOpenFail =>
      exact ⟨[Event.progress 0, Event.progress 5], Event.error, rfl, rfl, by decide⟩
    | spawnFail =>
      exact ⟨[Event.progress 0, Event.progress 5], Event.error, rfl, rfl, by decide⟩
    | runs polls outcome =>
      have hnt : ∀ e ∈ [Event.progress 0, Event.progress 5, Event.progress 10]
            ++ monitorRun simTime 0 polls, isTerminalEv e = false := by
        intro e he
        rcases List.mem_append.mp he with he | he
        · have : e = Event.progress 0 ∨ e = Event.progress 5 ∨ e = Event.progress 10 := by
            simpa using he
          rcases this with rfl | rfl | rfl <;> rfl
        · exact monitorRun_nonterminal simTime polls 0 e he
      cases outcome with
      | exited code =>
        by_cases hcode : code = 0
        · refine ⟨[Event.progress 0, Event.progress 5, Event.progress 10]
              ++ monitorRun simTime 0 polls ++ [Event.progress 100], Event.finished, ?_, rfl, ?_⟩
          · rw [runEvents_runs, terminalSteps, if_pos hcode]
            simp [List.append_assoc]
          · intro e he
            rcases List.mem_append.mp he with he | he
            · exact hnt e he
            · rcases List.mem_singleton.mp he with rfl
              rfl
        · refine ⟨[Event.progress 0, Event.progress 5, Event.progress 10]
              ++ monitorRun simTime 0 polls, Event.error, ?_, rfl, hnt⟩
          rw [runEvents_runs, terminalSteps, if_neg hcode]
      | timedOut =>
        refine ⟨[Event.progress 0, Event.progress 5, Event.progress 10]
            ++ monitorRun simTime 0 polls, Event.error, ?_, rfl, hnt⟩
        rw [runEvents_runs, terminalSteps]
  · intro hmem
    cases env with
    | scriptFail => simp [runEvents, runSteps] at hmem
    | preOpenFail => simp [runEvents, runSteps] at hmem
    | spawnFail => simp [runEvents, runSteps] at hmem
    | runs polls outcome =>
      rw [runEvents_runs] at hmem
      rcases List.mem_append.mp hmem with hmem | hmem
      · rcases List.mem_append.mp hmem with hmem | hmem
        · simp at hmem
        · obtain ⟨obs, -, h2⟩ := monitorRun_mem simTime polls 0 (Event.progress 100) hmem
          have h100 : (100 : Int) = pctFor simTime obs := by injection h2
          have := pctFor_le simTime obs
          omega
      · cases outcome with
        | exited code =>
          by_cases hcode : code = 0
          · exact ⟨polls, by rw [hcode]⟩
          · rw [terminalSteps, if_neg hcode] at hmem
            simp at hmem
        | timedOut =>
          rw [terminalSteps] at hmem
          simp at hmem

/-- Claim C5 witness: a run with `sim_time = 100`, no observed polls and
a clean exit has the single terminal `finished` event last. -/
theorem claim_C5_witness :
    ∃ pre t, runEvents 100 (RunEnv.runs [] (RunOutcome.exited 0)) = pre ++ [t]
      ∧ isTerminalEv t = true ∧ ∀ e ∈ pre, isTerminalEv e = false :=
  (claim_C5_amended 100 (by norm_num) (RunEnv.runs [] (RunOutcome.exited 0))).2.2.1

/-- Claim C8 counterexample: when `subprocess.Popen` raises after the
two log files were opened, the run jumps to the outer exception handler
and terminates without ever closing them - the close in the `finally`
block is only reached when the spawn succeeded. -/
theorem claim_C8_counterexample :
    WStep.openLogs ∈ runSteps 100 RunEnv.spawnFail
    ∧ WStep.closeLogs ∉ runSteps 100 RunEnv.spawnFail := by
  constructor
  · simp [runSteps]
  · simp [runSteps]

/-- Claim C8 (amended): on every execution path on which the child
process was successfully spawned - normal exit, nonzero exit, timeout
(and the exceptions raised inside the wait, which go through the same
`finally`) - both log handles opened by the run are closed before the
run terminates; only a path that raises between opening the logs and a
successful spawn (modelled by `spawnFail`) leaves them open. -/
theorem claim_C8_amended (simTime : ℚ) (env : RunEnv) (h : env ≠ RunEnv.spawnFail) :
    WStep.openLogs ∈ runSteps simTime env → WStep.closeLogs ∈ runSteps simTime env := by
  intro hopen
  cases env with
  | scriptFail => simp [runSteps] at hopen
  | preOpenFail => simp [runSteps] at hopen
  | spawnFail => exact absurd rfl h
  | runs polls outcome =>
    rw [runSteps]
    refine List.mem_append.mpr (Or.inl ?_)
    exact List.mem_append.mpr (Or.inr (List.mem_singleton.mpr rfl))

/-- Claim C8 witness: a run that spawns, observes nothing and exits
cleanly closes its log files. -/
theorem claim_C8_witness :
    WStep.closeLogs ∈ runSteps 100 (RunEnv.runs [] (RunOutcome.exited 0)) :=
  claim_C8_amended 100 (RunEnv.runs [] (RunOutcome.exited 0)) (by decide)
    (by simp [runSteps])

/-- Sum of a constant-valued map. -/
lemma sum_map_const {α : Type} (l : List α) (c : Nat) :
    (l.map fun _ => c).sum = l.length * c := by
  induction l with
  | nil => simp
  | cons x rest ih => simp [ih, Nat.succ_mul, Nat.add_comm]

/-- The Cartesian product has as many elements as the product of the
axis lengths. -/
lemma cartesianProduct_length (ls : List (List PValue)) :
    (cartesianProduct ls).length = (ls.map List.length).prod := by
  induction ls with
  | nil => rfl
  | cons xs rest ih =>
    rw [cartesianProduct, List.length_flatMap]
    have hconst : (List.length ∘ fun x => (cartesianProduct rest).map fun t => x :: t) =
        fun _ => (cartesianProduct rest).length := by
      funext x
      simp
    rw [hconst, sum_map_const, ih, List.map_cons, List.prod_cons]

/-- Every tuple of the Cartesian product has one entry per axis. -/
lemma cartesianProduct_mem_length (ls : List (List PValue)) :
    ∀ t ∈ cartesianProduct ls, t.length = ls.length := by
  induction ls with
  | nil =>
    intro t ht
    rw [cartesianProduct] at ht
    rcases List.mem_singleton.mp ht with rfl
    rfl
  | cons xs rest ih =>
    intro t ht
    rw [cartesianProduct] at ht
    obtain ⟨x, -, hmap⟩ := List.mem_flatMap.mp ht
    obtain ⟨t', ht', rfl⟩ := List.mem_map.mp hmap
    simp [ih t' ht']

/-- The Cartesian product of nonempty axes is nonempty. -/
lemma cartesianProduct_ne_nil (ls : List (List PValue)) (h : ∀ l ∈ ls, l ≠ []) :
    cartesianProduct ls ≠ [] := by
  induction ls with
  | nil => exact List.cons_ne_nil [] []
  | cons xs rest ih =>
    have hxs := h xs (List.mem_cons_self xs rest)
    have hrest := ih fun l hl => h l (List.mem_cons_of_mem xs hl)
    obtain ⟨x, hx⟩ := List.exists_mem_of_ne_nil xs hxs
    obtain ⟨t, ht⟩ := List.exists_mem_of_ne_nil (cartesianProduct rest) hrest
    refine List.ne_nil_of_mem (a := x :: t) ?_
    rw [cartesianProduct]
    exact List.mem_flatMap.mpr ⟨x, hx, List.mem_map.mpr ⟨t, ht, rfl⟩⟩

/-- Updating one key does not change the lookup of another. -/
lemma lookupA_updAssoc_ne (l : List (String × PValue)) (k nm : String) (v : PValue)
    (h : k ≠ nm) : lookupA nm (updAssoc l k v) = lookupA nm l := by
  induction l with
  | nil => simp [updAssoc, lookupA, h]
  | cons kv rest ih =>
    obtain ⟨k', v'⟩ := kv
    rw [updAssoc]
    by_cases hk : k' = k
    · subst hk
      rw [if_pos rfl, lookupA, lookupA, if_neg h, if_neg h]
    · rw [if_neg hk, lookupA, lookupA]
      by_cases hn : k' = nm
      · rw [if_pos hn, if_pos hn]
      · rw [if_neg hn, if_neg hn, ih]

/-- Updating a key sets its lookup. -/
lemma lookupA_updAssoc_eq (l : List (String × PValue)) (k : String) (v : PValue) :
    lookupA k (updAssoc l k v) = some v := by
  induction l with
  | nil => simp [updAssoc, lookupA]
  | cons kv rest ih =>
    obtain ⟨k', v'⟩ := kv
    rw [updAssoc]
    by_cases hk : k' = k
    · rw [if_pos hk, lookupA, if_pos hk]
    · rw [if_neg hk, lookupA, if_neg hk, ih]

/-- A fold of updates whose keys avoid `nm` does not change `nm`. -/
lemma lookupA_applyUpdates_ne (ups : List (String × PValue)) :
    ∀ base, (∀ kv ∈ ups, kv.1 ≠ nm) →
      lookupA nm (applyUpdates base ups) = lookupA nm base := by
  induction ups with
  | nil => intro base _; rfl
  | cons kv rest ih =>
    intro base h
    have hstep : applyUpdates base (kv :: rest) = applyUpdates (updAssoc base kv.1 kv.2) rest := rfl
    rw [hstep, ih _ fun kv' h' => h kv' (List.mem_cons_of_mem kv h'),
      lookupA_updAssoc_ne base kv.1 nm kv.2 (h kv (List.mem_cons_self kv rest))]

/-- A fold of updates with pairwise distinct keys sets every one of
them. -/
lemma lookupA_applyUpdates_eq (ups : List (String × PValue)) :
    ∀ base k v, (ups.map Prod.fst).Nodup → (k, v) ∈ ups →
      lookupA k (applyUpdates base ups) = some v := by
  induction ups with
  | nil => intro base k v _ hmem; simp at hmem
  | cons kv rest ih =>
    intro base k v hnd hmem
    have hstep : applyUpdates base (kv :: rest) = applyUpdates (updAssoc base kv.1 kv.2) rest := rfl
    rw [List.map_cons, List.nodup_cons] at hnd
    rcases List.mem_cons.mp hmem with rfl | hmem'
    · rw [hstep]
      rw [lookupA_applyUpdates_ne rest _ ?keys]
      · exact lookupA_updAssoc_eq base k v
      case keys =>
        intro kv' h' heq
        have hmm : kv'.1 ∈ rest.map Prod.fst := List.mem_map_of_mem Prod.fst h'
        rw [heq] at hmm
        exact hnd.1 hmm
    · rw [hstep]
      exact ih _ k v hnd.2 hmem'

/-- Indexing a zip of two equally long lists. -/
lemma getD_mem_zip (l1 : List String) (l2 : List PValue) (d1 : String) (d2 : PValue) :
    ∀ j, j < l1.length → l1.length = l2.length →
      (l1.getD j d1, l2.getD j d2) ∈ l1.zip l2 := by
  induction l1 generalizing l2 with
  | nil => intro j h _; simp at h
  | cons a as ih =>
    intro j h hl
    cases l2 with
    | nil => simp at hl
    | cons b bs =>
      cases j with
      | zero => simp
      | succ j =>
        simp only [List.getD_cons_succ, List.zip_cons_cons, List.mem_cons]
        exact Or.inr (ih bs j (by simpa using h) (by simpa using hl))

/-- The sweep names are a subsequence of the dict keys. -/
lemma detectSweep_names_sublist (ps : List (String × PValue)) :
    ((detectSweep ps).1.map Prod.fst).Sublist (ps.map Prod.fst) := by
  induction ps with
  | nil => simp [detectSweep]
  | cons kv rest ih =>
    obtain ⟨nm, v⟩ := kv
    rw [detectSweep]
    by_cases hc : ',' ∈ (strOfPValue v).data
    · simp only [hc, if_true, List.map_cons]
      exact List.Sublist.cons₂ nm ih
    · simp only [hc, if_false, List.map_cons]
      exact List.Sublist.cons nm ih

/-- Claim C2: for every parameter dict (keys unique, as in a Python
dict) whose sweep detection yields axes `sw` and base `base`, the
generated combinations are exactly one per element of the Cartesian
product of the axis value lists, taken in declaration order: their
number is the product of the axis lengths, every non-swept parameter
has an identical value (the base value) in every combination, and in
each combination the `j`-th swept name carries the `j`-th entry of the
corresponding product tuple. -/
theorem claim_C2_expansion (ps : List (String × PValue)) (sw : List (String × List PValue))
    (base : List (String × PValue)) (hdet : detectSweep ps = (sw, base))
    (hnd : (ps.map Prod.fst).Nodup) :
    (generateCombinations sw base).length = (sw.map fun ax => ax.2.length).prod
    ∧ (sw ≠ [] → generateCombinations sw base =
        (cartesianProduct (sw.map Prod.snd)).map fun tuple =>
          applyUpdates base ((sw.map Prod.fst).zip tuple))
    ∧ (∀ combo ∈ generateCombinations sw base, ∀ nm, nm ∉ sw.map Prod.fst →
        lookupA nm combo = lookupA nm base)
    ∧ (∀ tuple ∈ cartesianProduct (sw.map Prod.snd), ∀ j, j < sw.length →
        lookupA ((sw.map Prod.fst).getD j "")
            (applyUpdates base ((sw.map Prod.fst).zip tuple)) =
          some (tuple.getD j (PValue.vStr ""))) := by
  have hswnd : (sw.map Prod.fst).Nodup := by
    have := detectSweep_names_sublist ps
    rw [hdet] at this
    exact this.nodup hnd
  have htuplen : ∀ tuple ∈ cartesianProduct (sw.map Prod.snd), tuple.length = sw.length := by
    intro tuple ht
    rw [cartesianProduct_mem_length (sw.map Prod.snd) tuple ht, List.length_map]
  refine ⟨?_, ?_, ?_, ?_⟩
  · by_cases hsw : sw.isEmpty
    · rw [generateCombinations, if_pos hsw, List.isEmpty_iff.mp hsw]
      rfl
    · rw [generateCombinations, if_neg hsw, List.length_map, cartesianProduct_length,
        List.map_map]
      rfl
  · intro hsw
    rw [generateCombinations, if_neg (by simpa [List.isEmpty_iff] using hsw)]
  · intro combo hcombo nm hnm
    by_cases hsw : sw.isEmpty
    · rw [generateCombinations, if_pos hsw] at hcombo
      rcases List.mem_singleton.mp hcombo with rfl
      rfl
    · rw [generateCombinations, if_neg hsw] at hcombo
      obtain ⟨tuple, -, rfl⟩ := List.mem_map.mp hcombo
      refine lookupA_applyUpdates_ne _ base ?_
      intro kv hkv heq
      have h1 : kv.1 ∈ sw.map Prod.fst := by
        obtain ⟨a, b⟩ := kv
        exact (List.of_mem_zip hkv).1
      rw [heq] at h1
      exact hnm h1
  · intro tuple ht j hj
    have hlen : (sw.map Prod.fst).length = tuple.length := by
      rw [List.length_map, htuplen tuple ht]
    have hmem : ((sw.map Prod.fst).getD j "", tuple.getD j (PValue.vStr "")) ∈
        (sw.map Prod.fst).zip tuple :=
      getD_mem_zip (sw.map Prod.fst) tuple "" (PValue.vStr "") j
        (by rw [List.length_map]; exact hj) hlen
    refine lookupA_applyUpdates_eq _ base _ _ ?_ hmem
    rw [List.map_fst_zip _ _ (le_of_eq hlen)]
    exact hswnd

/-- Claim C2 witness: the spec's example dict, with one sweep axis of
two alternatives, expands to exactly two configurations. -/
theorem claim_C2_witness :
    (generateCombinations (detectSweep sampleSweepParams).1
        (detectSweep sampleSweepParams).2).length =
      ((detectSweep sampleSweepParams).1.map fun ax => ax.2.length).prod
    ∧ (generateCombinations (detectSweep sampleSweepParams).1
        (detectSweep sampleSweepParams).2).length = 2 :=
  ⟨(claim_C2_expansion sampleSweepParams (detectSweep sampleSweepParams).1
      (detectSweep sampleSweepParams).2 rfl (by decide)).1, by decide⟩

/-- Splitting always yields at least one token. -/
lemma splitOnComma_ne_nil (cs : List Char) : splitOnComma cs ≠ [] := by
  induction cs with
  | nil => exact List.cons_ne_nil [] []
  | cons c rest ih =>
    rw [splitOnComma]
    by_cases hc : c = ','
    · rw [if_pos hc]
      exact List.cons_ne_nil [] _
    · rw [if_neg hc]
      rcases hsp : splitOnComma rest with _ | ⟨t, ts⟩
      · exact List.cons_ne_nil [c] []
      · exact List.cons_ne_nil (c :: t) ts

/-- A sweep field always parses to at least one alternative. -/
lemma sweepValues_ne_nil (s : String) : sweepValues s ≠ [] := by
  rw [sweepValues, Ne, List.map_eq_nil_iff]
  exact splitOnComma_ne_nil s.data

/-- Every detected sweep axis has a nonempty alternatives list. -/
lemma detectSweep_vals_ne_nil (ps : List (String × PValue)) :
    ∀ ax ∈ (detectSweep ps).1, ax.2 ≠ [] := by
  induction ps with
  | nil => intro ax hax; simp [detectSweep] at hax
  | cons kv rest ih =>
    obtain ⟨nm, v⟩ := kv
    intro ax hax
    rw [detectSweep] at hax
    by_cases hc : ',' ∈ (strOfPValue v).data
    · simp only [hc, if_true] at hax
      rcases List.mem_cons.mp hax with rfl | hax'
      · exact sweepValues_ne_nil (strOfPValue v)
      · exact ih ax hax'
    · simp only [hc, if_false] at hax
      exact ih ax hax

/-- Expansion of detected axes never yields an empty configuration
list. -/
lemma generateCombinations_ne_nil (sw : List (String × List PValue))
    (base : List (String × PValue)) (h : ∀ ax ∈ sw, ax.2 ≠ []) :
    generateCombinations sw base ≠ [] := by
  by_cases hsw : sw.isEmpty
  · rw [generateCombinations, if_pos hsw]
    exact List.cons_ne_nil base []
  · rw [generateCombinations, if_neg hsw, Ne, List.map_eq_nil_iff]
    refine cartesianProduct_ne_nil (sw.map Prod.snd) ?_
    intro l hl
    obtain ⟨ax, hax, rfl⟩ := List.mem_map.mp hl
    exact h ax hax

/-- Sweep detection distributes over concatenation of the parameter
list. -/
lemma detectSweep_append (a b : List (String × PValue)) :
    detectSweep (a ++ b) =
      ((detectSweep a).1 ++ (detectSweep b).1, (detectSweep a).2 ++ (detectSweep b).2) := by
  induction a with
  | nil => simp [detectSweep]
  | cons kv rest ih =>
    obtain ⟨nm, v⟩ := kv
    rw [List.cons_append, detectSweep, detectSweep, ih]
    by_cases hc : ',' ∈ (strOfPValue v).data
    · simp [hc]
    · simp [hc]

/-- Claim C9: `_convert_to_number` never raises - a token that fails
both numeric conversions is returned as the string itself - so for every
comma-containing field the whitespace-trimmed tokens all become
alternatives (failed ones as strings), sweep detection registers the
axis instead of falling back to one literal value, and the expansion
never aborts (it always produces at least one configuration). -/
theorem claim_C9_tokens (l1 l2 : List (String × PValue)) (nm : String) (v : PValue)
    (hc : ',' ∈ (strOfPValue v).data) :
    (∀ s : String, pyParseInt s = none → isPyFloat s = false →
        convertToNumber s = PValue.vStr s)
    ∧ (detectSweep (l1 ++ (nm, v) :: l2)).1 =
        (detectSweep l1).1 ++ (nm, sweepValues (strOfPValue v)) :: (detectSweep l2).1
    ∧ (∀ t ∈ splitOnComma (strOfPValue v).data,
        pyParseInt (String.mk (pyStrip t)) = none →
        isPyFloat (String.mk (pyStrip t)) = false →
        PValue.vStr (String.mk (pyStrip t)) ∈ sweepValues (strOfPValue v))
    ∧ generateCombinations (detectSweep (l1 ++ (nm, v) :: l2)).1
        (detectSweep (l1 ++ (nm, v) :: l2)).2 ≠ [] := by
  have hconv : ∀ s : String, pyParseInt s = none → isPyFloat s = false →
      convertToNumber s = PValue.vStr s := by
    intro s h1 h2
    rw [convertToNumber]
    by_cases hdot : '.' ∈ s.data
    · rw [if_pos hdot, if_neg (by rw [h2]; exact Bool.false_ne_true)]
    · rw [if_neg hdot, h1]
  refine ⟨hconv, ?_, ?_, ?_⟩
  · rw [detectSweep_append, detectSweep]
    simp only [hc, if_true]
  · intro t ht h1 h2
    rw [sweepValues]
    refine List.mem_map.mpr ⟨t, ht, ?_⟩
    exact hconv (String.mk (pyStrip t)) h1 h2
  · exact generateCombinations_ne_nil _ _ (detectSweep_vals_ne_nil (l1 ++ (nm, v) :: l2))

/-- Claim C9 witness: the field `"2,abc"` (a numeric token and a token
that fails both conversions) becomes a sweep axis over the integer 2 and
the literal string `abc`. -/
theorem claim_C9_witness :
    (detectSweep ([] ++ ("jee", PValue.vStr "2,abc") :: [])).1 =
      (detectSweep ([] : List (String × PValue))).1 ++
        ("jee", sweepValues (strOfPValue (PValue.vStr "2,abc"))) ::
          (detectSweep ([] : List (String × PValue))).1
    ∧ (detectSweep [("jee", PValue.vStr "2,abc")]).1 =
        [("jee", [PValue.vInt 2, PValue.vStr "abc"])] :=
  ⟨(claim_C9_tokens [] [] "jee" (PValue.vStr "2,abc") (by decide)).2.1, by decide⟩
